import Mathlib

/-!
Verification of the template-substitution Discord bot (`src/bot.py`).

The development shallowly embeds the bot's pure logic:

* `SizedCache` with `__setitem__` / `__getitem__` / `__contains__`
  (`SizedCache.setItem`, `SizedCache.getItem`, `SizedCache.contains`);
  Python's `dict` is modelled as an association list with unique keys
  (`dictGet`, `dictSet`, `dictDel`, `dictContains`), and `list.remove`
  as `removeFirst` (first occurrence, as in Python).
* `parse_spec`, `dt_replacer` and the `DT_PATTERN` regex as an explicit
  backtracking matcher over `List Char` with Python `re` semantics
  (leftmost match, greedy/lazy priority as in the pattern).
* `emoji_replacer` and the `EMOJI_PATTERN` regex (`(?<!<)::([a-zA-Z0-9_]+)::`).
* `update_emojis`, `make_message`, and the slash-command / context-menu
  handlers as pure state-passing functions; outbound platform calls are
  recorded as `SentMsg` values, Python exceptions as `Except.error`.

Strings are modelled as `List Char`; `\d` and `\s` in the patterns are
modelled by their ASCII interpretations (all inputs considered here are
ASCII).  Machine wall-clock time enters through an explicit `Env`.
-/

set_option maxRecDepth 4000

/-! ## Python dict and list.remove, modelled on association lists -/

variable {K : Type} {V : Type}

/-- Keys of an association list, in insertion order (Python dict order). -/
def dictKeys (vs : List (K × V)) : List K := vs.map Prod.fst

/-- Python `key in dict`. -/
def dictContains [DecidableEq K] : List (K × V) → K → Bool
  | [], _ => false
  | (k2, _) :: rest, k => if k2 = k then true else dictContains rest k

/-- Python `dict[key]` as an `Option` (Python raises `KeyError` when absent). -/
def dictGet [DecidableEq K] : List (K × V) → K → Option V
  | [], _ => none
  | (k2, v) :: rest, k => if k2 = k then some v else dictGet rest k

/-- Python `dict[key] = value`: update in place if present, else append. -/
def dictSet [DecidableEq K] : List (K × V) → K → V → List (K × V)
  | [], k, v => [(k, v)]
  | (k2, v2) :: rest, k, v =>
    if k2 = k then (k, v) :: rest else (k2, v2) :: dictSet rest k v

/-- Python `del dict[key]` (a no-op when absent; the sole call site is
guarded so that the key is present). -/
def dictDel [DecidableEq K] : List (K × V) → K → List (K × V)
  | [], _ => []
  | (k2, v2) :: rest, k =>
    if k2 = k then dictDel rest k else (k2, v2) :: dictDel rest k

/-- Python `list.remove(x)`: drop the first occurrence (the sole call site
is guarded so that the element is present). -/
def removeFirst [DecidableEq K] : List K → K → List K
  | [], _ => []
  | x :: rest, k => if x = k then rest else x :: removeFirst rest k

/-! ## SizedCache (bot.py lines 58-78) -/

/-- The bot's bounded recency cache: `size`, recency `list` (front =
least-recently used), and the value dictionary `values`. -/
structure SizedCache (K V : Type) where
  size : Nat
  list : List K
  values : List (K × V)
deriving DecidableEq

/-- `SizedCache.__init__` (which also asserts `size > 0`; the positivity
is carried as a hypothesis `0 < size` in the theorems). -/
def SizedCache.init {K V : Type} (size : Nat) : SizedCache K V :=
  { size := size, list := [], values := [] }

/-- `SizedCache.__setitem__`.  The `[]` arm of the eviction branch is
unreachable when `0 < size` and the invariant holds (Python would raise
`IndexError` from `list.pop(0)` there). -/
def SizedCache.setItem [DecidableEq K] (c : SizedCache K V) (key : K) (value : V) :
    SizedCache K V :=
  let l := if dictContains c.values key then removeFirst c.list key else c.list
  if c.size ≤ l.length then
    match l with
    | [] => { c with list := [key], values := dictSet c.values key value }
    | old :: rest =>
      { c with list := rest ++ [key], values := dictSet (dictDel c.values old) key value }
  else
    { c with list := l ++ [key], values := dictSet c.values key value }

/-- `SizedCache.__getitem__` (Python raises `KeyError` when absent). -/
def SizedCache.getItem [DecidableEq K] (c : SizedCache K V) (k : K) : Option V :=
  dictGet c.values k

/-- `SizedCache.__contains__`. -/
def SizedCache.contains [DecidableEq K] (c : SizedCache K V) (k : K) : Bool :=
  dictContains c.values k

/-- Representation invariant of `SizedCache`: positive capacity, duplicate-free
recency list and dictionary keys, the same key set in both, at most `size`
entries, and equal sizes of list and dictionary. -/
def Wf [DecidableEq K] (c : SizedCache K V) : Prop :=
  0 < c.size ∧
  c.list.Nodup ∧
  (dictKeys c.values).Nodup ∧
  (∀ k ∈ c.list, k ∈ dictKeys c.values) ∧
  (∀ k ∈ dictKeys c.values, k ∈ c.list) ∧
  c.list.length ≤ c.size ∧
  c.values.length = c.list.length

instance [DecidableEq K] (c : SizedCache K V) : Decidable (Wf c) := by
  unfold Wf; infer_instance

/-- The caches reachable from `SizedCache(size)` by `__setitem__` calls. -/
inductive Reachable [DecidableEq K] (size : Nat) : SizedCache K V → Prop
  | init : 0 < size → Reachable size (SizedCache.init size)
  | set {c : SizedCache K V} (k : K) (v : V) :
      Reachable size c → Reachable size (c.setItem k v)

/-- Fold a list of key/value pairs into the cache with `__setitem__`. -/
def insertAll [DecidableEq K] (c : SizedCache K V) : List (K × V) → SizedCache K V
  | [] => c
  | (k, v) :: rest => insertAll (c.setItem k v) rest

/-! ## Character classes and `\n` unescaping -/

/-- The character class `[a-zA-Z0-9_]` of `EMOJI_PATTERN`. -/
def isWordChar (c : Char) : Bool :=
  c.isAlpha || c.isDigit || c = '_'

/-- The regex class `\s` (ASCII part, which is all that is used here). -/
def isPySpace (c : Char) : Bool :=
  c = ' ' || c = '\t' || c = '\n' || c = '\r' || c = '\x0b' || c = '\x0c'

/-- `string.replace('\\n', '\n')` from `make_message`: replace each literal
backslash-n pair with a newline, scanning left to right. -/
def unescapeNewlines : List Char → List Char
  | '\\' :: 'n' :: rest => '\n' :: unescapeNewlines rest
  | c :: rest => c :: unescapeNewlines rest
  | [] => []

/-! ## EMOJI_PATTERN: `(?<!<)::([a-zA-Z0-9_]+)::` (bot.py line 52) -/

/-- Try to match `EMOJI_PATTERN` at the start of `l`; `prev` is the character
just before this position in the original string (the `(?<!<)` lookbehind).
Returns the captured name and the remainder after the match.  Because `:` is
not a word character, the greedy `[a-zA-Z0-9_]+` always captures the maximal
word-character run, with no backtracking. -/
def emojiMatchAt (prev : Option Char) (l : List Char) : Option (List Char × List Char) :=
  if prev = some '<' then none
  else if l.take 2 = [':', ':'] then
    let r := l.drop 2
    let name := r.takeWhile isWordChar
    if name = [] then none
    else if (r.drop name.length).take 2 = [':', ':'] then
      some (name, (r.drop name.length).drop 2)
    else none
  else none

/-- `emoji_replacer` (bot.py lines 134-138): a known name becomes
`<:name:id>`, an unknown one is rendered `:name:`. -/
def emoji_replacer (emojis : List (List Char × List Char))
    (name : List Char) : List Char :=
  match dictGet emojis name with
  | some i => '<' :: ':' :: (name ++ ':' :: (i ++ ['>']))
  | none => ':' :: (name ++ [':'])

/-- `EMOJI_PATTERN.sub(emoji_replacer, string)` scan: non-overlapping
left-to-right matches on the original string.  `fuel` bounds the recursion;
each step consumes at least one character, so `fuel = l.length` suffices. -/
def emojiSubAux (emojis : List (List Char × List Char)) :
    Nat → Option Char → List Char → List Char
  | 0, _, l => l
  | fuel + 1, prev, l =>
    match emojiMatchAt prev l with
    | some (name, rest) =>
      emoji_replacer emojis name ++ emojiSubAux emojis fuel (some ':') rest
    | none =>
      match l with
      | [] => []
      | c :: rest => c :: emojiSubAux emojis fuel (some c) rest

/-- `EMOJI_PATTERN.sub(emoji_replacer, string)`. -/
def emojiSub (emojis : List (List Char × List Char)) (l : List Char) : List Char :=
  emojiSubAux emojis l.length none l

/-- `EMOJI_PATTERN.search(string)`, tracking the lookbehind character. -/
def emojiSearchAux (prev : Option Char) : List Char → Bool
  | [] => false
  | c :: rest => (emojiMatchAt prev (c :: rest)).isSome || emojiSearchAux (some c) rest

/-- `EMOJI_PATTERN.search(string)` from the start of the string. -/
def emojiSearch (l : List Char) : Bool :=
  emojiSearchAux none l

/-! ## parse_spec (bot.py lines 96-111) -/

/-- The part of the token text before the first `!` (Python
`string.partition('!')[0]`, called `typ` in the source). -/
def bangTyp (s : List Char) : List Char :=
  s.takeWhile (· != '!')

/-- `parse_spec`: display-style suffix for a timestamp token.  Strings are
`List Char`; `s.head? = some c` models `str.startswith`. -/
def parse_spec (s : List Char) (timed dated : Bool) : List Char :=
  if s.head? = some '~' then [':', 'R']
  else if s.contains '!' && (bangTyp s).head? = some 't' then [':', 't']
  else if s.contains '!' && (bangTyp s).head? = some 'd' then [':', 'D']
  else if timed && dated then [':', 'f']
  else if timed && !dated then [':', 't']
  else if !timed && dated then [':', 'D']
  else []

/-! ## DT_PATTERN (bot.py lines 49-51)

`\{[~]?(?:.*?!)?(?:(?:(\d{4})/)?(\d{1,2})/(\d{1,2})\s*)?(?:(\d{1,2}):(\d{1,2})(?::(\d{1,2}))?)?\}`

modelled as an explicit backtracking matcher.  Each combinator returns the
list of its possible remainders in Python `re` backtracking priority order
(greedy quantifiers longest-first, the lazy `.*?` shortest-first, and each
optional group tried before its empty alternative); the first full-pattern
candidate is exactly the match Python's engine commits to. -/

/-- Captured groups of `DT_PATTERN` (digit strings; `none` = not matched). -/
structure DTCaps where
  year : Option (List Char)
  month : Option (List Char)
  day : Option (List Char)
  hour : Option (List Char)
  minute : Option (List Char)
  second : Option (List Char)
deriving DecidableEq

/-- `[~]?` (greedy): consume a leading `~` if present, in priority order. -/
def tildeRests (l : List Char) : List (List Char) :=
  match l with
  | '~' :: rest => [rest, '~' :: rest]
  | _ => [l]

/-- `.*?!` (lazy): remainders after each `!` reachable without crossing a
newline (`.` does not match `\n`), nearest `!` first. -/
def bangRests (l : List Char) : List (List Char) :=
  match l with
  | [] => []
  | c :: rest =>
    (if c = '!' then [rest] else []) ++ (if c = '\n' then [] else bangRests rest)

/-- `\d{lo,hi}` (greedy): digit-run captures of length `lo..hi`, longest
first, paired with the remainder. -/
def digitsRep (lo hi : Nat) (l : List Char) : List (List Char × List Char) :=
  let run := (l.takeWhile Char.isDigit).length
  (((List.range (min run hi + 1)).reverse).filter (fun k => lo ≤ k)).map
    (fun k => (l.take k, l.drop k))

/-- `\s*` (greedy): remainders after consuming a maximal-to-empty run of
whitespace, longest consumed first. -/
def wsRests (l : List Char) : List (List Char) :=
  let run := (l.takeWhile isPySpace).length
  ((List.range (run + 1)).reverse).map (fun k => l.drop k)

/-- `(?:(\d{4})/)?(\d{1,2})/(\d{1,2})\s*`: date-group alternatives as
`((year?, month, day), remainder)`, in backtracking priority order. -/
def dateCands (l : List Char) : List ((Option (List Char) × List Char × List Char) × List Char) :=
  let afterYear := fun (y : Option (List Char)) (l2 : List Char) =>
    (digitsRep 1 2 l2).flatMap (fun mo =>
      match mo.2 with
      | '/' :: r4 =>
        (digitsRep 1 2 r4).flatMap (fun dd =>
          (wsRests dd.2).map (fun r6 => ((y, mo.1, dd.1), r6)))
      | _ => [])
  ((digitsRep 4 4 l).flatMap (fun yd =>
    match yd.2 with
    | '/' :: r2 => afterYear (some yd.1) r2
    | _ => [])) ++ afterYear none l

/-- `(\d{1,2}):(\d{1,2})(?::(\d{1,2}))?`: time-group alternatives as
`((hour, minute, second?), remainder)`, in backtracking priority order. -/
def timeCands (l : List Char) : List ((List Char × List Char × Option (List Char)) × List Char) :=
  (digitsRep 1 2 l).flatMap (fun hh =>
    match hh.2 with
    | ':' :: r2 =>
      (digitsRep 1 2 r2).flatMap (fun mm =>
        (match mm.2 with
         | ':' :: r4 => (digitsRep 1 2 r4).map (fun ss => ((hh.1, mm.1, some ss.1), ss.2))
         | _ => []) ++ [((hh.1, mm.1, none), mm.2)])
    | _ => [])

/-- Assemble the six captures from the optional date and time groups. -/
def mkCaps (dateG : Option (Option (List Char) × List Char × List Char))
    (timeG : Option (List Char × List Char × Option (List Char))) : DTCaps :=
  { year := dateG.bind (fun dg => dg.1)
    month := dateG.map (fun dg => dg.2.1)
    day := dateG.map (fun dg => dg.2.2)
    hour := timeG.map (fun tg => tg.1)
    minute := timeG.map (fun tg => tg.2.1)
    second := timeG.bind (fun tg => tg.2.2) }

/-- All full matches of `DT_PATTERN` anchored at the start of `l`, in
backtracking priority order, as `(captures, remainder)`. -/
def dtCandsAt (l : List Char) : List (DTCaps × List Char) :=
  match l with
  | '\x7b' :: r0 =>
    (tildeRests r0).flatMap (fun r1 =>
      (bangRests r1 ++ [r1]).flatMap (fun r2 =>
        ((dateCands r2).map
              (fun (dc : (Option (List Char) × List Char × List Char) × List Char) =>
                ((some dc.1, dc.2) :
                  Option (Option (List Char) × List Char × List Char) × List Char)) ++
            [(none, r2)]).flatMap
          (fun dateAlt =>
            ((timeCands dateAlt.2).map
                  (fun (tc : (List Char × List Char × Option (List Char)) × List Char) =>
                    ((some tc.1, tc.2) :
                      Option (List Char × List Char × Option (List Char)) × List Char)) ++
                [(none, dateAlt.2)]).flatMap
              (fun timeAlt =>
                match timeAlt.2 with
                | '\x7d' :: rest => [(mkCaps dateAlt.1 timeAlt.1, rest)]
                | _ => []))))
  | _ => []

/-- The match of `DT_PATTERN` at the start of `l` that Python's engine
commits to, if any. -/
def dtMatchAt (l : List Char) : Option (DTCaps × List Char) :=
  (dtCandsAt l).head?

/-- `DT_PATTERN.search(string) is not None`: a match starts somewhere. -/
def dtSearch : List Char → Bool
  | [] => false
  | c :: rest => (dtMatchAt (c :: rest)).isSome || dtSearch rest

/-! ## Python datetime (the fields used by dt_replacer) -/

/-- A Python `datetime`'s civil fields (microseconds are irrelevant to every
property considered and are omitted). -/
structure PyDateTime where
  year : Int
  month : Int
  day : Int
  hour : Int
  minute : Int
  second : Int
deriving DecidableEq

/-- Gregorian leap year, as in Python's `calendar`/`datetime`. -/
def isLeapYear (y : Int) : Bool :=
  (y % 4 = 0 && !(y % 100 = 0)) || y % 400 = 0

/-- Days in a month, as validated by `datetime.replace`. -/
def daysInMonth (y m : Int) : Int :=
  if m = 2 then (if isLeapYear y then 29 else 28)
  else if m = 4 || m = 6 || m = 9 || m = 11 then 30
  else 31

/-- The range checks `datetime.replace` performs on the resulting value
(`MINYEAR..MAXYEAR`, month, day-of-month, hour, minute, second). -/
def validDateTime (dt : PyDateTime) : Bool :=
  1 ≤ dt.year && dt.year ≤ 9999 &&
  1 ≤ dt.month && dt.month ≤ 12 &&
  1 ≤ dt.day && dt.day ≤ daysInMonth dt.year dt.month &&
  0 ≤ dt.hour && dt.hour ≤ 23 &&
  0 ≤ dt.minute && dt.minute ≤ 59 &&
  0 ≤ dt.second && dt.second ≤ 59

/-- Cumulative days before month `m` (1-based), leap-adjusted. -/
def daysBeforeMonth (y m : Int) : Int :=
  [0, 31, 59, 90, 120, 151, 181, 212, 243, 273, 304, 334].getD (m.toNat - 1) 0 +
    (if 2 < m && isLeapYear y then 1 else 0)

/-- `date.toordinal()`: proleptic Gregorian ordinal, day 1 = 0001-01-01. -/
def toOrdinal (y m d : Int) : Int :=
  365 * (y - 1) + (y - 1) / 4 - (y - 1) / 100 + (y - 1) / 400 + daysBeforeMonth y m + d

/-- `int(dt.timestamp())` for an aware datetime whose civil fields are in a
timezone `tzSeconds` east of UTC (1970-01-01 has ordinal 719163). -/
def pyTimestamp (dt : PyDateTime) (tzSeconds : Int) : Int :=
  (toOrdinal dt.year dt.month dt.day - 719163) * 86400 +
    dt.hour * 3600 + dt.minute * 60 + dt.second - tzSeconds

/-- Python `int(...)` on a captured digit string. -/
def digitsToInt (ds : List Char) : Int :=
  ds.foldl (fun a c => a * 10 + ((c.toNat : Int) - 48)) 0

/-- One `datetime.replace(field=v)` step: set the field, then validate the
whole result; Python raises `ValueError` when out of range. -/
def applyField (r : Except String PyDateTime) (g : Option (List Char))
    (set : PyDateTime → Int → PyDateTime) : Except String PyDateTime :=
  match r, g with
  | .error e, _ => .error e
  | .ok dt, none => .ok dt
  | .ok dt, some ds =>
    let dt2 := set dt (digitsToInt ds)
    if validDateTime dt2 then .ok dt2 else .error "ValueError"

/-! ## dt_replacer (bot.py lines 114-131) -/

/-- The environment a substitution runs in: the wall-clock civil time in the
configured timezone (`datetime.now().astimezone(get_timezone())`), the
configured offset, the wall-clock epoch seconds used by the emoji-refresh
throttle, and the emoji directory the remote fetch would return. -/
structure Env where
  now : PyDateTime
  tzSeconds : Int
  nowEpoch : Int
  fetched : List (List Char × List Char)

/-- `dt_replacer`: override the fields of `now.replace(second=0)` with the
captured groups in order year, month, day, hour, minute, second (each step
validated as `datetime.replace` does), then emit
`<t:{epoch}{parse_spec(...)}>`.  `inner` is the matched token text between
the braces (`match.string[begin+1:end-1]`). -/
def dt_replacer (env : Env) (caps : DTCaps) (inner : List Char) :
    Except String (List Char) :=
  let base := { env.now with second := 0 }
  let r := applyField (.ok base) caps.year (fun dt v => { dt with year := v })
  let r := applyField r caps.month (fun dt v => { dt with month := v })
  let r := applyField r caps.day (fun dt v => { dt with day := v })
  let r := applyField r caps.hour (fun dt v => { dt with hour := v })
  let r := applyField r caps.minute (fun dt v => { dt with minute := v })
  let r := applyField r caps.second (fun dt v => { dt with second := v })
  match r with
  | .error e => .error e
  | .ok dt =>
    let timed := caps.hour.isSome
    let dated := caps.day.isSome
    let spec := parse_spec inner timed dated
    .ok ('<' :: 't' :: ':' :: (toString (pyTimestamp dt env.tzSeconds)).toList ++
          spec ++ ['>'])

/-- `DT_PATTERN.sub(dt_replacer, string)` scan; a `ValueError` from the
replacer aborts the whole substitution (the Python exception propagates).
Each step consumes at least one character, so `fuel = l.length` suffices. -/
def dtSubAux (env : Env) : Nat → List Char → Except String (List Char)
  | 0, l => .ok l
  | fuel + 1, l =>
    match dtMatchAt l with
    | some (caps, rest) =>
      let matched := l.take (l.length - rest.length)
      let inner := (matched.drop 1).dropLast
      match dt_replacer env caps inner with
      | .error e => .error e
      | .ok repl =>
        match dtSubAux env fuel rest with
        | .error e => .error e
        | .ok tailOut => .ok (repl ++ tailOut)
    | none =>
      match l with
      | [] => .ok []
      | c :: rest =>
        match dtSubAux env fuel rest with
        | .error e => .error e
        | .ok tailOut => .ok (c :: tailOut)

/-- `DT_PATTERN.sub(dt_replacer, string)`. -/
def dtSub (env : Env) (l : List Char) : Except String (List Char) :=
  dtSubAux env l.length l

/-! ## Emoji directory state, update_emojis, make_message (bot.py 141-166) -/

/-- The process-wide mutable globals: the `emojis` dict and the
`emoji_updated` datetime (as epoch seconds). -/
structure BotState where
  emojis : List (List Char × List Char)
  emojiUpdated : Int
deriving DecidableEq

/-- The globals as initialised at module load: empty directory, and
`emoji_updated = datetime.fromtimestamp(0)`. -/
def initialBotState : BotState :=
  { emojis := [], emojiUpdated := 0 }

/-- `update_emojis` (bot.py lines 141-151): skip if the recorded refresh
time is less than 5 minutes old, else fetch the directory and merge it into
`emojis`.  Note that the source never assigns `emoji_updated` (there is no
`global emoji_updated` statement and no assignment to it), which this
definition reproduces.  The returned `Bool` is whether the remote fetch
(`client.http.request`) was performed. -/
def update_emojis (env : Env) (st : BotState) : BotState × Bool :=
  if env.nowEpoch - st.emojiUpdated < 300 then (st, false)
  else
    ({ st with emojis := env.fetched.foldl (fun m p => dictSet m p.1 p.2) st.emojis },
      true)

/-- `make_message` (bot.py lines 154-161): unescape `\n`, substitute
timestamp tokens, refresh the emoji directory if an emoji token is present,
then substitute emoji tokens.  Returns the produced text (or the escaping
exception), the resulting globals, and whether a remote fetch happened. -/
def make_message (env : Env) (st : BotState) (string : List Char) :
    Except String (List Char) × BotState × Bool :=
  let s1 := unescapeNewlines string
  match dtSub env s1 with
  | .error e => (.error e, st, false)
  | .ok s2 =>
    if emojiSearch s2 then
      let u := update_emojis env st
      (.ok (emojiSub u.1.emojis s2), u.1, u.2)
    else
      (.ok (emojiSub st.emojis s2), st, false)

/-! ## Timezone persistence (bot.py lines 81-93, 201-204) -/

/-- `set_timezone`: the decimal value written to `timezone.txt` for a
timezone whose UTC offset is `offsetSeconds`.  Python computes
`tz.utcoffset(None).seconds / 3600`, and `timedelta.seconds` is the
normalised non-negative seconds component, i.e. `offsetSeconds mod 86400`. -/
def set_timezone_file (offsetSeconds : Int) : ℚ :=
  ((offsetSeconds % 86400 : Int) : ℚ) / 3600

/-- `get_timezone`: reading the persisted decimal hour count back yields a
`timezone(timedelta(hours=v))`, which requires `-24 < v < 24` (otherwise
Python raises `ValueError`); its UTC offset is `v` hours. -/
def get_timezone_hours (fileContent : ℚ) : Except String ℚ :=
  if -24 < fileContent && fileContent < 24 then .ok fileContent
  else .error "ValueError"

/-- `timezone_command` (bot.py lines 201-204): the platform enforces the
integer option range `-12..12`; the handler builds
`timezone(timedelta(hours=h))` (offset `h*3600` seconds) and persists it. -/
def timezone_command_file (h : Int) : ℚ :=
  set_timezone_file (h * 3600)

/-! ## Command and context-menu handlers (bot.py 177-242) -/

/-- An outbound `ctx.send`-style platform call. -/
structure SentMsg where
  content : List Char
  ephemeral : Bool
deriving DecidableEq

/-- The fields of a target message the handlers inspect. -/
structure MsgRef where
  id : Nat
  authorId : Nat
deriving DecidableEq

/-- `echo_command` (bot.py lines 177-188): substitute, send, cache the
original template under the new message id.  First component: the messages
this handler sends; second: either the escaping exception (in which case the
handler has sent nothing) or the resulting globals, fetch flag and cache. -/
def echo_command (env : Env) (st : BotState) (cache : SizedCache Nat (List Char))
    (newMessageId : Nat) (message : List Char) :
    List SentMsg × Except String (BotState × Bool × SizedCache Nat (List Char)) :=
  match make_message env st message with
  | (.error e, _, _) => ([], .error e)
  | (.ok contents, st2, fetched) =>
    ([{ content := contents, ephemeral := false }],
      .ok (st2, fetched, cache.setItem newMessageId message))

/-- `edit_context` (bot.py lines 207-228): reject unless the target message
was sent by the bot; otherwise wait for the modal (`modalResponse = none`
models the 600 s timeout, which aborts silently), store the submitted text
in the cache, and edit the message with the substituted text.  Components:
messages sent, whether the platform edit call was attempted, the cache after
the handler, and either the escaping exception or the resulting globals. -/
def edit_context (env : Env) (st : BotState) (cache : SizedCache Nat (List Char))
    (botUserId : Nat) (msg : MsgRef) (modalResponse : Option (List Char)) :
    List SentMsg × Bool × SizedCache Nat (List Char) × Except String BotState :=
  if msg.authorId ≠ botUserId then
    ([{ content := "This message is not sent by me!".toList, ephemeral := true }],
      false, cache, .ok st)
  else
    match modalResponse with
    | none => ([], false, cache, .ok st)
    | some text =>
      let cache2 := cache.setItem msg.id text
      match make_message env st text with
      | (.error e, _, _) => ([], false, cache2, .error e)
      | (.ok _, st2, _) => ([], true, cache2, .ok st2)

/-- `delete_context` (bot.py lines 231-242): reject unless the target
message was sent by the bot; otherwise attempt the delete (success given by
`deleteOk`), reporting the outcome ephemerally.  Components: messages sent,
and whether the platform delete call was attempted. -/
def delete_context (botUserId : Nat) (msg : MsgRef) (deleteOk : Bool) :
    List SentMsg × Bool :=
  if msg.authorId ≠ botUserId then
    ([{ content := "This message is not sent by me!".toList, ephemeral := true }], false)
  else if deleteOk then
    ([{ content := "Message deleted!".toList, ephemeral := true }], true)
  else
    ([{ content := "Failed to delete message!".toList, ephemeral := true }], true)

/-! ## Concrete sample environments used by witnesses and counterexamples -/

/-- A sample substitution environment: wall clock 1970-01-05 00:00:00 UTC,
configured offset 0, an emoji directory with one entry `a ↦ 1`. -/
def sampleEnv : Env :=
  { now := { year := 1970, month := 1, day := 5, hour := 0, minute := 0, second := 0 }
    tzSeconds := 0
    nowEpoch := 1000000
    fetched := [("a".toList, "1".toList)] }

/-- `sampleEnv` sixty seconds later. -/
def sampleEnvLater : Env :=
  { sampleEnv with nowEpoch := 1000060 }

/-! ## Helper lemmas: the dict model -/

theorem dictKeys_nil : dictKeys ([] : List (K × V)) = [] := rfl

theorem dictKeys_cons (k2 : K) (v2 : V) (rest : List (K × V)) :
    dictKeys ((k2, v2) :: rest) = k2 :: dictKeys rest := rfl

theorem dictKeys_append (vs ws : List (K × V)) :
    dictKeys (vs ++ ws) = dictKeys vs ++ dictKeys ws := by
  simp [dictKeys]

theorem dictContains_iff [DecidableEq K] (vs : List (K × V)) (k : K) :
    dictContains vs k = true ↔ k ∈ dictKeys vs := by
  induction vs with
  | nil => simp [dictContains, dictKeys]
  | cons p rest ih =>
    obtain ⟨k2, v2⟩ := p
    rw [dictKeys_cons, List.mem_cons]
    by_cases h : k2 = k
    · subst h
      simp [dictContains]
    · have h2 : ¬k = k2 := fun e => h e.symm
      simp [dictContains, h, h2, ih]

theorem dictContains_eq_false_iff [DecidableEq K] (vs : List (K × V)) (k : K) :
    dictContains vs k = false ↔ k ∉ dictKeys vs := by
  rw [← dictContains_iff]
  cases h : dictContains vs k <;> simp

theorem dictGet_isSome_iff [DecidableEq K] (vs : List (K × V)) (k : K) :
    (dictGet vs k).isSome = true ↔ k ∈ dictKeys vs := by
  induction vs with
  | nil => simp [dictGet, dictKeys]
  | cons p rest ih =>
    obtain ⟨k2, v2⟩ := p
    rw [dictKeys_cons, List.mem_cons]
    by_cases h : k2 = k
    · subst h
      simp [dictGet]
    · have h2 : ¬k = k2 := fun e => h e.symm
      simp [dictGet, h, h2, ih]

theorem dictKeys_dictSet [DecidableEq K] (vs : List (K × V)) (k : K) (v : V) :
    dictKeys (dictSet vs k v) =
      if dictContains vs k then dictKeys vs else dictKeys vs ++ [k] := by
  induction vs with
  | nil => simp [dictSet, dictContains, dictKeys]
  | cons p rest ih =>
    obtain ⟨k2, v2⟩ := p
    by_cases h : k2 = k
    · simp [dictSet, dictContains, dictKeys_cons, h]
    · simp only [dictSet, dictContains, if_neg h, dictKeys_cons, ih]
      split <;> simp [dictKeys_cons]

theorem length_dictSet [DecidableEq K] (vs : List (K × V)) (k : K) (v : V) :
    (dictSet vs k v).length =
      if dictContains vs k then vs.length else vs.length + 1 := by
  induction vs with
  | nil => simp [dictSet, dictContains]
  | cons p rest ih =>
    obtain ⟨k2, v2⟩ := p
    by_cases h : k2 = k
    · simp [dictSet, dictContains, h, ih]
    · simp only [dictSet, dictContains, if_neg h, List.length_cons, ih]
      split <;> simp

theorem dictSet_not_contains [DecidableEq K] (vs : List (K × V)) (k : K) (v : V)
    (h : dictContains vs k = false) : dictSet vs k v = vs ++ [(k, v)] := by
  induction vs with
  | nil => simp [dictSet]
  | cons p rest ih =>
    obtain ⟨k2, v2⟩ := p
    by_cases h2 : k2 = k
    · simp [dictContains, h2] at h
    · simp [dictContains, h2] at h
      simp [dictSet, h2, ih h]

theorem dictGet_dictSet_self [DecidableEq K] (vs : List (K × V)) (k : K) (v : V) :
    dictGet (dictSet vs k v) k = some v := by
  induction vs with
  | nil => simp [dictSet, dictGet]
  | cons p rest ih =>
    obtain ⟨k2, v2⟩ := p
    by_cases h : k2 = k <;> simp [dictSet, dictGet, h, ih]

theorem dictGet_dictSet_ne [DecidableEq K] (vs : List (K × V)) (k k2 : K) (v : V)
    (h : k2 ≠ k) : dictGet (dictSet vs k v) k2 = dictGet vs k2 := by
  have h2 : ¬k = k2 := fun e => h e.symm
  induction vs with
  | nil => simp [dictSet, dictGet, h2]
  | cons p rest ih =>
    obtain ⟨k3, v3⟩ := p
    by_cases h3 : k3 = k
    · subst h3
      simp [dictSet, dictGet, h2]
    · by_cases h4 : k3 = k2 <;> simp [dictSet, dictGet, h3, h4, ih, h]

theorem mem_dictKeys_dictDel [DecidableEq K] (vs : List (K × V)) (k k2 : K) :
    k2 ∈ dictKeys (dictDel vs k) ↔ k2 ∈ dictKeys vs ∧ k2 ≠ k := by
  induction vs with
  | nil => simp [dictDel, dictKeys]
  | cons p rest ih =>
    obtain ⟨k3, v3⟩ := p
    by_cases h : k3 = k
    · subst h
      rw [dictDel, if_pos rfl, dictKeys_cons, List.mem_cons, ih]
      constructor
      · rintro ⟨hm, hne⟩
        exact ⟨Or.inr hm, hne⟩
      · rintro ⟨hm | hm, hne⟩
        · exact absurd hm hne
        · exact ⟨hm, hne⟩
    · rw [dictDel, if_neg h, dictKeys_cons, dictKeys_cons, List.mem_cons,
        List.mem_cons, ih]
      by_cases h4 : k2 = k3
      · subst h4
        have : k2 ≠ k := fun e => h (e ▸ rfl)
        simp [this]
      · simp [h4]

theorem dictDel_not_contains [DecidableEq K] (vs : List (K × V)) (k : K)
    (h : dictContains vs k = false) : dictDel vs k = vs := by
  induction vs with
  | nil => simp [dictDel]
  | cons p rest ih =>
    obtain ⟨k2, v2⟩ := p
    by_cases h2 : k2 = k
    · simp [dictContains, h2] at h
    · simp [dictContains, h2] at h
      simp [dictDel, h2, ih h]

theorem length_dictDel_of_mem [DecidableEq K] (vs : List (K × V)) (k : K)
    (hnd : (dictKeys vs).Nodup) (hmem : k ∈ dictKeys vs) :
    (dictDel vs k).length + 1 = vs.length := by
  induction vs with
  | nil => simp [dictKeys] at hmem
  | cons p rest ih =>
    obtain ⟨k2, v2⟩ := p
    rw [dictKeys_cons] at hnd hmem
    rw [List.nodup_cons] at hnd
    rw [List.mem_cons] at hmem
    by_cases h : k2 = k
    · subst h
      rw [dictDel]
      simp only [if_pos rfl]
      have : dictContains rest k2 = false := (dictContains_eq_false_iff rest k2).2 hnd.1
      rw [dictDel_not_contains rest k2 this]
      simp
    · rcases hmem with hmem | hmem
      · exact absurd hmem.symm h
      · rw [dictDel]
        simp only [if_neg h, List.length_cons]
        rw [ih hnd.2 hmem]

theorem nodup_dictKeys_dictDel [DecidableEq K] (vs : List (K × V)) (k : K)
    (hnd : (dictKeys vs).Nodup) : (dictKeys (dictDel vs k)).Nodup := by
  induction vs with
  | nil => simp [dictDel, dictKeys]
  | cons p rest ih =>
    obtain ⟨k2, v2⟩ := p
    rw [dictKeys_cons, List.nodup_cons] at hnd
    by_cases h : k2 = k
    · rw [dictDel, if_pos h]
      exact ih hnd.2
    · rw [dictDel, if_neg h, dictKeys_cons, List.nodup_cons]
      refine ⟨fun hc => hnd.1 ?_, ih hnd.2⟩
      exact ((mem_dictKeys_dictDel rest k k2).1 hc).1

/-! ## Helper lemmas: removeFirst -/

theorem length_removeFirst_of_mem [DecidableEq K] {l : List K} {k : K}
    (h : k ∈ l) : (removeFirst l k).length + 1 = l.length := by
  induction l with
  | nil => simp at h
  | cons x rest ih =>
    by_cases h2 : x = k
    · simp [removeFirst, h2]
    · have : k ∈ rest := by
        rcases List.mem_cons.1 h with h3 | h3
        · exact absurd h3.symm h2
        · exact h3
      simp [removeFirst, h2, ih this]

theorem removeFirst_subset [DecidableEq K] {l : List K} {k k2 : K}
    (h : k2 ∈ removeFirst l k) : k2 ∈ l := by
  induction l with
  | nil => simp [removeFirst] at h
  | cons x rest ih =>
    by_cases h2 : x = k
    · simp [removeFirst, h2] at h
      simp [h]
    · simp [removeFirst, h2] at h
      rcases h with h | h
      · simp [h]
      · simp [ih h]

theorem mem_removeFirst_of_ne [DecidableEq K] {l : List K} {k k2 : K}
    (h : k2 ≠ k) : k2 ∈ removeFirst l k ↔ k2 ∈ l := by
  induction l with
  | nil => simp [removeFirst]
  | cons x rest ih =>
    by_cases h2 : x = k
    · subst h2
      simp [removeFirst, h]
    · simp [removeFirst, h2, ih]

theorem nodup_removeFirst [DecidableEq K] {l : List K} (k : K)
    (h : l.Nodup) : (removeFirst l k).Nodup := by
  induction l with
  | nil => simp [removeFirst]
  | cons x rest ih =>
    simp at h
    by_cases h2 : x = k
    · simp [removeFirst, h2, h.2]
    · simp [removeFirst, h2]
      exact ⟨fun hc => h.1 (removeFirst_subset hc), ih h.2⟩

theorem not_mem_removeFirst_self [DecidableEq K] {l : List K} {k : K}
    (h : l.Nodup) : k ∉ removeFirst l k := by
  induction l with
  | nil => simp [removeFirst]
  | cons x rest ih =>
    simp at h
    by_cases h2 : x = k
    · subst h2
      simp [removeFirst, h.1]
    · simp [removeFirst, h2]
      exact ⟨fun hc => h2 hc.symm, ih h.2⟩

/-! ## Helper lemmas: SizedCache.setItem case shapes -/

theorem setItem_present [DecidableEq K] (c : SizedCache K V) (key : K) (v : V)
    (hc : dictContains c.values key = true) (hmem : key ∈ c.list)
    (hlen : c.list.length ≤ c.size) :
    c.setItem key v =
      { c with list := removeFirst c.list key ++ [key],
               values := dictSet c.values key v } := by
  have hrm := length_removeFirst_of_mem hmem
  have hlt : ¬c.size ≤ (removeFirst c.list key).length := by omega
  simp [SizedCache.setItem, hc, hlt]

theorem setItem_fresh_notFull [DecidableEq K] (c : SizedCache K V) (key : K) (v : V)
    (hc : dictContains c.values key = false) (hlen : c.list.length < c.size) :
    c.setItem key v =
      { c with list := c.list ++ [key], values := dictSet c.values key v } := by
  have hlt : ¬c.size ≤ c.list.length := by omega
  simp [SizedCache.setItem, hc, hlt]

theorem setItem_fresh_full [DecidableEq K] (c : SizedCache K V) (key : K) (v : V)
    {old : K} {rest : List K}
    (hc : dictContains c.values key = false) (hl : c.list = old :: rest)
    (hlen : c.size ≤ c.list.length) :
    c.setItem key v =
      { c with list := rest ++ [key],
               values := dictSet (dictDel c.values old) key v } := by
  have h2 : c.size ≤ rest.length + 1 := by
    have h3 := hlen
    rw [hl] at h3
    simpa using h3
  simp [SizedCache.setItem, hc, hl, h2]

/-! ## Helper lemmas: the representation invariant -/

theorem wf_init [DecidableEq K] (size : Nat) (h : 0 < size) :
    Wf (SizedCache.init size : SizedCache K V) := by
  simp [Wf, SizedCache.init, dictKeys, h]

theorem wf_setItem [DecidableEq K] {c : SizedCache K V} (hwf : Wf c)
    (key : K) (v : V) : Wf (c.setItem key v) := by
  obtain ⟨hpos, hnl, hnk, hlk, hkl, hlen, hvl⟩ := hwf
  by_cases hc : dictContains c.values key = true
  · have hmemk : key ∈ dictKeys c.values := (dictContains_iff _ _).1 hc
    have hmem : key ∈ c.list := hkl key hmemk
    have hrm := length_removeFirst_of_mem hmem
    rw [setItem_present c key v hc hmem hlen]
    refine ⟨hpos, ?_, ?_, ?_, ?_, ?_, ?_⟩
    · rw [List.nodup_append]
      exact ⟨nodup_removeFirst key hnl, List.nodup_singleton key,
        by simpa using not_mem_removeFirst_self hnl⟩
    · rw [dictKeys_dictSet, if_pos hc]
      exact hnk
    · intro k hk
      rw [dictKeys_dictSet, if_pos hc]
      rcases List.mem_append.1 hk with hk | hk
      · exact hlk k (removeFirst_subset hk)
      · simp at hk
        exact hk ▸ hmemk
    · intro k hk
      rw [dictKeys_dictSet, if_pos hc] at hk
      rcases Decidable.em (k = key) with he | he
      · simp [he]
      · exact List.mem_append.2 (Or.inl ((mem_removeFirst_of_ne he).2 (hkl k hk)))
    · simp only [List.length_append, List.length_singleton]
      omega
    · rw [length_dictSet, if_pos hc]
      simp only [List.length_append, List.length_singleton]
      omega
  · have hc2 : dictContains c.values key = false := by
      cases h2 : dictContains c.values key
      · rfl
      · exact absurd h2 hc
    have hkeys : key ∉ dictKeys c.values := (dictContains_eq_false_iff _ _).1 hc2
    have hmem : key ∉ c.list := fun h2 => hkeys (hlk key h2)
    by_cases hfull : c.size ≤ c.list.length
    · have hlen2 : c.list.length = c.size := le_antisymm hlen hfull
      have hne : c.list ≠ [] := by
        intro h2
        rw [h2] at hlen2
        simp at hlen2
        omega
      obtain ⟨old, rest, hl⟩ := List.exists_cons_of_ne_nil hne
      have holdmem : old ∈ c.list := by simp [hl]
      have holdkeys : old ∈ dictKeys c.values := hlk old holdmem
      have hkeyold : key ≠ old := fun h2 => hmem (h2 ▸ holdmem)
      have hnl2 : rest.Nodup ∧ old ∉ rest := by
        rw [hl, List.nodup_cons] at hnl
        exact ⟨hnl.2, hnl.1⟩
      have hcdel : dictContains (dictDel c.values old) key = false := by
        rw [dictContains_eq_false_iff, mem_dictKeys_dictDel]
        intro h2
        exact hkeys h2.1
      rw [setItem_fresh_full c key v hc2 hl hfull]
      refine ⟨hpos, ?_, ?_, ?_, ?_, ?_, ?_⟩
      · rw [List.nodup_append]
        refine ⟨hnl2.1, List.nodup_singleton key, ?_⟩
        simpa using fun h2 => hmem (by simp [hl, h2])
      · rw [dictKeys_dictSet, if_neg (by simp [hcdel])]
        rw [List.nodup_append]
        refine ⟨nodup_dictKeys_dictDel _ _ hnk, by simp, ?_⟩
        simp
        intro h2
        exact hkeys ((mem_dictKeys_dictDel _ _ _).1 h2).1
      · intro k hk
        rw [dictKeys_dictSet, if_neg (by simp [hcdel])]
        rcases List.mem_append.1 hk with hk | hk
        · refine List.mem_append.2 (Or.inl ?_)
          rw [mem_dictKeys_dictDel]
          have hkl2 : k ∈ c.list := by simp [hl, hk]
          refine ⟨hlk k hkl2, fun h2 => ?_⟩
          exact hnl2.2 (h2 ▸ hk)
        · simp at hk
          simp [hk]
      · intro k hk
        rw [dictKeys_dictSet, if_neg (by simp [hcdel])] at hk
        rcases List.mem_append.1 hk with hk | hk
        · rw [mem_dictKeys_dictDel] at hk
          have : k ∈ c.list := hkl k hk.1
          rw [hl, List.mem_cons] at this
          rcases this with h2 | h2
          · exact absurd h2 hk.2
          · exact List.mem_append.2 (Or.inl h2)
        · simp [dictKeys] at hk
          simp [hk]
      · have : c.list.length = rest.length + 1 := by simp [hl]
        simp only [List.length_append, List.length_singleton]
        omega
      · rw [length_dictSet, if_neg (by simp [hcdel])]
        have h3 := length_dictDel_of_mem c.values old hnk holdkeys
        have : c.list.length = rest.length + 1 := by simp [hl]
        simp only [List.length_append, List.length_singleton]
        omega
    · rw [setItem_fresh_notFull c key v hc2 (by omega)]
      refine ⟨hpos, ?_, ?_, ?_, ?_, ?_, ?_⟩
      · rw [List.nodup_append]
        exact ⟨hnl, List.nodup_singleton key, by simpa using hmem⟩
      · rw [dictKeys_dictSet, if_neg (by simp [hc2])]
        rw [List.nodup_append]
        exact ⟨hnk, by simp, by simpa using hkeys⟩
      · intro k hk
        rw [dictKeys_dictSet, if_neg (by simp [hc2])]
        rcases List.mem_append.1 hk with hk | hk
        · exact List.mem_append.2 (Or.inl (hlk k hk))
        · exact List.mem_append.2 (Or.inr hk)
      · intro k hk
        rw [dictKeys_dictSet, if_neg (by simp [hc2])] at hk
        rcases List.mem_append.1 hk with hk | hk
        · exact List.mem_append.2 (Or.inl (hkl k hk))
        · exact List.mem_append.2 (Or.inr hk)
      · simp only [List.length_append, List.length_singleton]
        omega
      · rw [length_dictSet, if_neg (by simp [hc2])]
        simp only [List.length_append, List.length_singleton]
        omega

theorem setItem_size [DecidableEq K] (c : SizedCache K V) (key : K) (v : V) :
    (c.setItem key v).size = c.size := by
  simp only [SizedCache.setItem]
  repeat' split
  all_goals rfl

theorem reach_wf [DecidableEq K] {size : Nat} {c : SizedCache K V}
    (h : Reachable size c) : Wf c ∧ c.size = size := by
  induction h with
  | init hpos => exact ⟨wf_init size hpos, rfl⟩
  | set k v _ ih => exact ⟨wf_setItem ih.1 k v, (setItem_size _ k v).trans ih.2⟩

/-! ## Helper lemmas: filling the cache with fresh keys -/

theorem dictKeys_map_pair (ks : List K) (v : V) :
    dictKeys (ks.map (fun k => (k, v))) = ks := by
  simp [dictKeys, List.map_map]
  exact List.map_id ks

theorem insertAll_fresh [DecidableEq K] (v : V) :
    ∀ (ks : List K) (c : SizedCache K V), Wf c →
      (∀ k ∈ ks, k ∉ dictKeys c.values) → (c.list ++ ks).Nodup →
      c.list.length + ks.length ≤ c.size →
      (insertAll c (ks.map (fun k => (k, v)))).list = c.list ++ ks ∧
      (insertAll c (ks.map (fun k => (k, v)))).values =
        c.values ++ ks.map (fun k => (k, v)) ∧
      Wf (insertAll c (ks.map (fun k => (k, v)))) := by
  intro ks
  induction ks with
  | nil =>
    intro c hwf _ _ _
    simpa [insertAll] using hwf
  | cons k ks ih =>
    intro c hwf hfresh hnd hlen
    have hc : dictContains c.values k = false :=
      (dictContains_eq_false_iff _ _).2 (hfresh k (by simp))
    have hnotfull : c.list.length < c.size := by
      simp at hlen
      omega
    have hshape := setItem_fresh_notFull c k v hc hnotfull
    have hwf2 : Wf (c.setItem k v) := wf_setItem hwf k v
    rw [hshape] at hwf2
    have hvals : dictSet c.values k v = c.values ++ [(k, v)] :=
      dictSet_not_contains c.values k v hc
    rw [hvals] at hwf2 hshape
    have hfresh2 : ∀ k2 ∈ ks, k2 ∉ dictKeys (c.values ++ [(k, v)]) := by
      intro k2 hk2
      rw [dictKeys_append]
      intro hmem
      rcases List.mem_append.1 hmem with hmem | hmem
      · exact hfresh k2 (by simp [hk2]) hmem
      · simp [dictKeys] at hmem
        subst hmem
        have h2 : (k2 :: ks).Nodup := (List.nodup_append.1 hnd).2.1
        rw [List.nodup_cons] at h2
        exact h2.1 hk2
    have hnd2 : ((c.list ++ [k]) ++ ks).Nodup := by
      rw [List.append_assoc]
      simpa using hnd
    have hlen2 : (c.list ++ [k]).length + ks.length ≤ c.size := by
      simp at hlen
      simp
      omega
    have hsize : (c.setItem k v).size = c.size := setItem_size c k v
    simp only [List.map_cons, insertAll]
    rw [hshape] at hsize ⊢
    have := ih { c with list := c.list ++ [k], values := c.values ++ [(k, v)] }
      hwf2 hfresh2 hnd2 (by simpa using hlen2)
    refine ⟨?_, ?_, this.2.2⟩
    · rw [this.1]
      simp
    · rw [this.2.1]
      simp

/-! ## Helper lemmas: the emoji scanner -/

theorem emojiMatchAt_nil (prev : Option Char) : emojiMatchAt prev [] = none := by
  unfold emojiMatchAt
  split
  · rfl
  · simp

theorem emojiSubAux_nil (em : List (List Char × List Char)) (fuel : Nat)
    (prev : Option Char) : emojiSubAux em fuel prev [] = [] := by
  cases fuel with
  | zero => rfl
  | succ n => simp [emojiSubAux, emojiMatchAt_nil]

theorem emojiSubAux_of_search_false (em : List (List Char × List Char)) :
    ∀ (l : List Char) (prev : Option Char) (fuel : Nat),
      emojiSearchAux prev l = false → emojiSubAux em fuel prev l = l := by
  intro l
  induction l with
  | nil => intro prev fuel _; exact emojiSubAux_nil em fuel prev
  | cons c rest ih =>
    intro prev fuel h
    rw [emojiSearchAux] at h
    simp only [Bool.or_eq_false_iff] at h
    have h1 : emojiMatchAt prev (c :: rest) = none := by
      cases hm : emojiMatchAt prev (c :: rest)
      · rfl
      · rw [hm] at h
        simp at h
    cases fuel with
    | zero => rfl
    | succ n =>
      rw [emojiSubAux, h1]
      rw [ih (some c) n h.2]

/-- `isWordChar ':' = false`, so a word character is never a colon. -/
theorem word_ne_colon {c : Char} (h : isWordChar c = true) : c ≠ ':' := by
  intro he
  subst he
  exact absurd h (by decide)

theorem takeWhile_all_append (p : Char → Bool) :
    ∀ (xs ys : List Char), (∀ c ∈ xs, p c = true) →
      (∀ c, ys.head? = some c → p c = false) →
      (xs ++ ys).takeWhile p = xs := by
  intro xs
  induction xs with
  | nil =>
    intro ys _ hy
    cases ys with
    | nil => rfl
    | cons c rest =>
      simp [List.takeWhile, hy c rfl]
  | cons x xs ih =>
    intro ys hx hy
    have hpx : p x = true := hx x (by simp)
    simp only [List.cons_append, List.takeWhile, hpx]
    exact congrArg (List.cons x) (ih ys (fun c hc => hx c (by simp [hc])) hy)

theorem emojiMatchAt_token (prev : Option Char) (hprev : prev ≠ some '<')
    (name rest : List Char) (hne : name ≠ [])
    (hw : ∀ c ∈ name, isWordChar c = true) :
    emojiMatchAt prev (':' :: ':' :: (name ++ ':' :: ':' :: rest)) =
      some (name, rest) := by
  have htw : (name ++ ':' :: ':' :: rest).takeWhile isWordChar = name := by
    refine takeWhile_all_append isWordChar name (':' :: ':' :: rest) hw ?_
    intro c hc
    simp at hc
    subst hc
    decide
  have hdrop : (name ++ ':' :: ':' :: rest).drop name.length = ':' :: ':' :: rest :=
    List.drop_left name (':' :: ':' :: rest)
  simp [emojiMatchAt, hprev, htw, hdrop, hne]

theorem emojiSub_single_token (em : List (List Char × List Char))
    (name : List Char) (hne : name ≠ [])
    (hw : ∀ c ∈ name, isWordChar c = true) :
    emojiSub em (':' :: ':' :: (name ++ [':', ':'])) = emoji_replacer em name := by
  have hm : emojiMatchAt none (':' :: ':' :: (name ++ ':' :: ':' :: [])) =
      some (name, []) :=
    emojiMatchAt_token none (by simp) name [] hne hw
  have hlen : (':' :: ':' :: (name ++ [':', ':'])).length = name.length + 3 + 1 := by
    simp
    try omega
  rw [emojiSub, hlen, emojiSubAux, hm]
  show emoji_replacer em name ++ emojiSubAux em (name.length + 3) (some ':') [] =
    emoji_replacer em name
  rw [emojiSubAux_nil]
  simp

theorem emojiSearchAux_word_colon2 (name : List Char)
    (hw : ∀ c ∈ name, isWordChar c = true) :
    ∀ prev, emojiSearchAux prev (name ++ [':', ':']) = false := by
  induction name with
  | nil =>
    intro prev
    have h1 : emojiMatchAt prev [':', ':'] = none := by
      unfold emojiMatchAt
      split
      · rfl
      · decide
    have h2 : emojiMatchAt (some ':') [':'] = none := by
      unfold emojiMatchAt
      split
      · rfl
      · decide
    simp [emojiSearchAux, h1, h2]
  | cons a name ih =>
    intro prev
    have ha : isWordChar a = true := hw a (by simp)
    have hane : a ≠ ':' := word_ne_colon ha
    have h1 : emojiMatchAt prev (a :: (name ++ [':', ':'])) = none := by
      have hcond : ¬((a :: (name ++ [':', ':'])).take 2 = [':', ':']) := by
        rw [List.take_succ_cons]
        intro hc
        injection hc with hc1 hc2
        exact hane hc1
      by_cases hp : prev = some '<'
      · simp [emojiMatchAt, hp]
      · unfold emojiMatchAt
        rw [if_neg hp, if_neg hcond]
    rw [show (a :: name) ++ [':', ':'] = a :: (name ++ [':', ':']) from rfl]
    rw [emojiSearchAux, h1]
    simp only [Option.isSome_none, Bool.false_or]
    exact ih (fun c hc => hw c (by simp [hc])) (some a)

/-! ## Helper lemmas: the timestamp-token scanner -/

theorem dtSubAux_of_search_false (env : Env) :
    ∀ (l : List Char) (fuel : Nat), dtSearch l = false →
      dtSubAux env fuel l = .ok l := by
  intro l
  induction l with
  | nil =>
    intro fuel _
    cases fuel with
    | zero => rfl
    | succ n =>
      have hm : dtMatchAt [] = none := rfl
      rw [dtSubAux, hm]
  | cons c rest ih =>
    intro fuel h
    rw [dtSearch] at h
    simp only [Bool.or_eq_false_iff] at h
    have h1 : dtMatchAt (c :: rest) = none := by
      cases hm : dtMatchAt (c :: rest)
      · rfl
      · rw [hm] at h
        simp at h
    cases fuel with
    | zero => rfl
    | succ n =>
      rw [dtSubAux, h1, ih n h.2]

theorem insertAll_append [DecidableEq K] (c : SizedCache K V)
    (xs ys : List (K × V)) :
    insertAll c (xs ++ ys) = insertAll (insertAll c xs) ys := by
  induction xs generalizing c with
  | nil => simp [insertAll]
  | cons p xs ih =>
    obtain ⟨k, v⟩ := p
    simp [insertAll, ih]

theorem insertAll_size [DecidableEq K] (c : SizedCache K V)
    (kvs : List (K × V)) : (insertAll c kvs).size = c.size := by
  induction kvs generalizing c with
  | nil => rfl
  | cons p rest ih =>
    obtain ⟨k, v⟩ := p
    rw [insertAll, ih, setItem_size]

/-! ## Claim theorems -/

/-- C10: every `SizedCache` operation preserves the representation invariant
(the recency list holds each key at most once and its key set equals the
dictionary's key set); consequently the lengths agree and
`__contains__`/`__getitem__` answer consistently with the recency list.
`__getitem__` and `__contains__` do not mutate the cache, so the invariant
statement covers `__init__` and `__setitem__`. -/
theorem sizedCache_invariant_preserved [DecidableEq K] (size : Nat)
    (c : SizedCache K V) (k : K) (v : V) :
    (0 < size → Wf (SizedCache.init size : SizedCache K V)) ∧
    (Wf c → Wf (c.setItem k v)) ∧
    (Wf c → c.list.length = c.values.length ∧
      (∀ k2, c.contains k2 = true ↔ k2 ∈ c.list) ∧
      (∀ k2, (c.getItem k2).isSome = true ↔ k2 ∈ c.list)) := by
  refine ⟨wf_init size, fun hwf => wf_setItem hwf k v, fun hwf => ?_⟩
  obtain ⟨hpos, hnl, hnk, hlk, hkl, hlen, hvl⟩ := hwf
  refine ⟨hvl.symm, fun k2 => ?_, fun k2 => ?_⟩
  · rw [SizedCache.contains, dictContains_iff]
    exact ⟨fun h => hkl k2 h, fun h => hlk k2 h⟩
  · rw [SizedCache.getItem, dictGet_isSome_iff]
    exact ⟨fun h => hkl k2 h, fun h => hlk k2 h⟩

/-- Witness for C10 at concrete inputs. -/
theorem sizedCache_invariant_preserved_witness :
    Wf (SizedCache.init 2 : SizedCache Nat Nat) ∧
    Wf ((⟨2, [1], [(1, 5)]⟩ : SizedCache Nat Nat).setItem 3 7) ∧
    (⟨2, [1], [(1, 5)]⟩ : SizedCache Nat Nat).list.length =
      (⟨2, [1], [(1, 5)]⟩ : SizedCache Nat Nat).values.length :=
  ⟨(sizedCache_invariant_preserved 2 (SizedCache.init 2) 3 7).1 (by decide),
   (sizedCache_invariant_preserved 2 (⟨2, [1], [(1, 5)]⟩ : SizedCache Nat Nat) 3 7).2.1
     (by decide),
   ((sizedCache_invariant_preserved 2 (⟨2, [1], [(1, 5)]⟩ : SizedCache Nat Nat) 3 7).2.2
     (by decide)).1⟩

/-- C5: re-setting a key already present (in an invariant-satisfying cache,
as every reachable cache is) keeps the entry count, stores the new value,
moves the key to the most-recently-used end of the recency list, and evicts
nothing: every other key keeps its value and membership. -/
theorem cache_reinsert_existing [DecidableEq K] (c : SizedCache K V) (k : K)
    (v : V) (hwf : Wf c) (hmem : c.contains k = true) :
    (c.setItem k v).values.length = c.values.length ∧
    (c.setItem k v).getItem k = some v ∧
    (c.setItem k v).list = removeFirst c.list k ++ [k] ∧
    (∀ k2, k2 ≠ k → (c.setItem k v).getItem k2 = c.getItem k2) ∧
    (∀ k2, (c.setItem k v).contains k2 = c.contains k2) := by
  obtain ⟨hpos, hnl, hnk, hlk, hkl, hlen, hvl⟩ := hwf
  rw [SizedCache.contains] at hmem
  have hmeml : k ∈ c.list := hkl k ((dictContains_iff _ _).1 hmem)
  rw [setItem_present c k v hmem hmeml hlen]
  refine ⟨?_, ?_, rfl, ?_, ?_⟩
  · show (dictSet c.values k v).length = c.values.length
    rw [length_dictSet, if_pos hmem]
  · show dictGet (dictSet c.values k v) k = some v
    exact dictGet_dictSet_self c.values k v
  · intro k2 hk2
    show dictGet (dictSet c.values k v) k2 = dictGet c.values k2
    exact dictGet_dictSet_ne c.values k k2 v hk2
  · intro k2
    show dictContains (dictSet c.values k v) k2 = dictContains c.values k2
    have hkeq : dictKeys (dictSet c.values k v) = dictKeys c.values := by
      rw [dictKeys_dictSet, if_pos hmem]
    have h1 := dictContains_iff (dictSet c.values k v) k2
    have h2 := dictContains_iff c.values k2
    rw [hkeq] at h1
    cases hca : dictContains (dictSet c.values k v) k2 <;>
      cases hcb : dictContains c.values k2
    · rfl
    · rw [hca] at h1
      rw [hcb] at h2
      exact absurd (h1.2 (h2.1 rfl)) (by simp)
    · rw [hca] at h1
      rw [hcb] at h2
      exact absurd (h2.2 (h1.1 rfl)) (by simp)
    · rfl

/-- Witness for C5 at a concrete cache. -/
theorem cache_reinsert_existing_witness :
    ((⟨2, [1, 2], [(1, 10), (2, 20)]⟩ : SizedCache Nat Nat).setItem 1 99).values.length =
      (⟨2, [1, 2], [(1, 10), (2, 20)]⟩ : SizedCache Nat Nat).values.length ∧
    ((⟨2, [1, 2], [(1, 10), (2, 20)]⟩ : SizedCache Nat Nat).setItem 1 99).getItem 1 =
      some 99 ∧
    ((⟨2, [1, 2], [(1, 10), (2, 20)]⟩ : SizedCache Nat Nat).setItem 1 99).list =
      removeFirst [1, 2] 1 ++ [1] := by
  have h := cache_reinsert_existing (⟨2, [1, 2], [(1, 10), (2, 20)]⟩ : SizedCache Nat Nat)
    1 99 (by decide) (by decide)
  exact ⟨h.1, h.2.1, h.2.2.1⟩

/-- C4: on every reachable cache of capacity `size` the stored-entry count
(and the recency-list length) never exceeds `size`; and filling an empty
cache of capacity `size` with `size + 1` distinct keys evicts exactly the
first-inserted key: both the recency list and the dictionary keys end up
being precisely the remaining keys, in insertion order. -/
theorem cache_capacity_and_eviction [DecidableEq K] :
    (∀ (size : Nat) (c : SizedCache K V), Reachable size c →
      c.values.length ≤ size ∧ c.list.length ≤ size) ∧
    (∀ (size : Nat) (ks : List K) (v : V), 0 < size → ks.Nodup →
      ks.length = size + 1 →
      (insertAll (SizedCache.init size) (ks.map (fun k => (k, v)))).list = ks.tail ∧
      dictKeys (insertAll (SizedCache.init size)
        (ks.map (fun k => (k, v)))).values = ks.tail) := by
  constructor
  · intro size c h
    obtain ⟨⟨hpos, hnl, hnk, hlk, hkl, hlen, hvl⟩, hsize⟩ := reach_wf h
    omega
  · intro size ks v hpos hnd hlen
    have hne : ks ≠ [] := by
      intro h
      rw [h] at hlen
      simp at hlen
    have hks : ks.dropLast ++ [ks.getLast hne] = ks :=
      List.dropLast_append_getLast hne
    have hdl : ks.dropLast.length = size := by
      rw [List.length_dropLast, hlen]
      rfl
    have hndDL : ks.dropLast.Nodup := (List.dropLast_sublist ks).nodup hnd
    have hlastDL : ks.getLast hne ∉ ks.dropLast := by
      have h2 := hnd
      rw [← hks, List.nodup_append] at h2
      intro hc
      exact (h2.2.2 hc) (by simp)
    have hinit : Wf (SizedCache.init size : SizedCache K V) := wf_init size hpos
    have hfill := insertAll_fresh v ks.dropLast (SizedCache.init size) hinit
      (by
        intro k2 _
        simp [SizedCache.init, dictKeys])
      (by simpa [SizedCache.init] using hndDL)
      (by simp [SizedCache.init]; omega)
    set c1 := insertAll (SizedCache.init size : SizedCache K V)
      (ks.dropLast.map (fun k => (k, v))) with hc1
    have hlist1 : c1.list = ks.dropLast := by
      rw [hfill.1]
      simp [SizedCache.init]
    have hvals1 : c1.values = ks.dropLast.map (fun k => (k, v)) := by
      rw [hfill.2.1]
      simp [SizedCache.init]
    have hwf1 : Wf c1 := hfill.2.2
    have hsize1 : c1.size = size := by
      rw [hc1, insertAll_size]
      rfl
    have hcontains : dictContains c1.values (ks.getLast hne) = false := by
      rw [dictContains_eq_false_iff, hvals1, dictKeys_map_pair]
      exact hlastDL
    have hfull : c1.size ≤ c1.list.length := by
      rw [hsize1, hlist1, hdl]
    have hneDL : ks.dropLast ≠ [] := by
      intro h
      rw [h] at hdl
      simp at hdl
      omega
    obtain ⟨old, rest, hl⟩ := List.exists_cons_of_ne_nil hneDL
    have hl1 : c1.list = old :: rest := by rw [hlist1, hl]
    have hshape := setItem_fresh_full c1 (ks.getLast hne) v hcontains hl1 hfull
    have hmapsplit : ks.map (fun k => (k, v)) =
        ks.dropLast.map (fun k => (k, v)) ++ [(ks.getLast hne, v)] := by
      conv_lhs => rw [← hks]
      rw [List.map_append]
      rfl
    have hsplit : insertAll (SizedCache.init size : SizedCache K V)
        (ks.map (fun k => (k, v))) = c1.setItem (ks.getLast hne) v := by
      rw [hmapsplit, insertAll_append, hc1]
      rfl
    have htail : ks.tail = rest ++ [ks.getLast hne] := by
      conv_lhs => rw [← hks]
      rw [hl]
      rfl
    have holdrest : old ∉ rest ∧ rest.Nodup := by
      have h2 := hndDL
      rw [hl, List.nodup_cons] at h2
      exact h2
    have hlastrest : ks.getLast hne ∉ rest := by
      intro hc
      exact hlastDL (by rw [hl]; exact List.mem_cons_of_mem old hc)
    have hvalshape : dictSet (dictDel c1.values old) (ks.getLast hne) v =
        rest.map (fun k => (k, v)) ++ [(ks.getLast hne, v)] := by
      have hv1 : c1.values = (old, v) :: rest.map (fun k => (k, v)) := by
        rw [hvals1, hl]
        rfl
      rw [hv1, dictDel, if_pos rfl]
      have hco : dictContains (rest.map (fun k => (k, v))) old = false := by
        rw [dictContains_eq_false_iff, dictKeys_map_pair]
        exact holdrest.1
      rw [dictDel_not_contains _ _ hco]
      have hcl : dictContains (rest.map (fun k => (k, v))) (ks.getLast hne) = false := by
        rw [dictContains_eq_false_iff, dictKeys_map_pair]
        exact hlastrest
      exact dictSet_not_contains _ _ v hcl
    rw [hsplit, hshape]
    constructor
    · show rest ++ [ks.getLast hne] = ks.tail
      rw [htail]
    · show dictKeys (dictSet (dictDel c1.values old) (ks.getLast hne) v) = ks.tail
      rw [hvalshape, dictKeys_append, dictKeys_map_pair, htail]
      rfl

/-- Witness for C4 at concrete inputs: a reachable cache of capacity 1, and
the eviction of the first of three distinct keys from a capacity-2 cache. -/
theorem cache_capacity_and_eviction_witness :
    (((SizedCache.init 1 : SizedCache Nat Nat).setItem 3 5).values.length ≤ 1 ∧
      ((SizedCache.init 1 : SizedCache Nat Nat).setItem 3 5).list.length ≤ 1) ∧
    ((insertAll (SizedCache.init 2 : SizedCache Nat Nat)
        ([10, 11, 12].map (fun k => (k, 7)))).list = [10, 11, 12].tail ∧
      dictKeys (insertAll (SizedCache.init 2 : SizedCache Nat Nat)
        ([10, 11, 12].map (fun k => (k, 7)))).values = [10, 11, 12].tail) :=
  ⟨cache_capacity_and_eviction.1 1 ((SizedCache.init 1).setItem 3 5)
      (Reachable.set 3 5 (Reachable.init (by decide))),
   cache_capacity_and_eviction.2 2 [10, 11, 12] 7 (by decide) (by decide) (by decide)⟩

/-- C6: `parse_spec` follows the stated priority rule: a token starting with
`~` gives style `R` regardless of everything else; otherwise a `!`-prefix
starting with `t` gives `t` and one starting with `d` gives `D`, regardless
of the `timed`/`dated` flags; otherwise the flags decide: both give `f`,
timed only gives `t`, dated only gives `D`, and neither gives no style
suffix at all (the styles are returned with their leading `:`, as in the
source). -/
theorem parse_spec_priority (s : List Char) (timed dated : Bool) :
    (s.head? = some '~' → parse_spec s timed dated = [':', 'R']) ∧
    (s.head? ≠ some '~' → s.contains '!' = true → (bangTyp s).head? = some 't' →
      parse_spec s timed dated = [':', 't']) ∧
    (s.head? ≠ some '~' → s.contains '!' = true → (bangTyp s).head? = some 'd' →
      parse_spec s timed dated = [':', 'D']) ∧
    (s.head? ≠ some '~' →
      (s.contains '!' = false ∨
        ((bangTyp s).head? ≠ some 't' ∧ (bangTyp s).head? ≠ some 'd')) →
      ((timed = true → dated = true → parse_spec s timed dated = [':', 'f']) ∧
       (timed = true → dated = false → parse_spec s timed dated = [':', 't']) ∧
       (timed = false → dated = true → parse_spec s timed dated = [':', 'D']) ∧
       (timed = false → dated = false → parse_spec s timed dated = []))) := by
  refine ⟨?_, ?_, ?_, ?_⟩
  · intro h
    simp [parse_spec, h]
  · intro h1 h2 h3
    have h2m : '!' ∈ s := by simpa using h2
    simp [parse_spec, h1, h2m, h3]
  · intro h1 h2 h3
    have h2m : '!' ∈ s := by simpa using h2
    have h4 : (bangTyp s).head? ≠ some 't' := by
      rw [h3]
      decide
    simp [parse_spec, h1, h2m, h3, h4]
  · intro h1 h2
    rcases h2 with h2 | ⟨h2t, h2d⟩
    · have h2m : '!' ∉ s := by simpa using h2
      refine ⟨?_, ?_, ?_, ?_⟩ <;> intro ht hd <;> simp [parse_spec, h1, h2m, ht, hd]
    · refine ⟨?_, ?_, ?_, ?_⟩ <;> intro ht hd <;>
        simp [parse_spec, h1, h2t, h2d, ht, hd]

/-- Witness for C6 on concrete tokens from the spec's test list. -/
theorem parse_spec_priority_witness :
    parse_spec "~d!5".toList false false = [':', 'R'] ∧
    parse_spec "t!1/2 3:4".toList true true = [':', 't'] ∧
    parse_spec "d!1/2 3:4".toList true true = [':', 'D'] ∧
    parse_spec "1/2 3:4".toList true true = [':', 'f'] ∧
    parse_spec "3:4".toList true false = [':', 't'] ∧
    parse_spec "1/2".toList false true = [':', 'D'] ∧
    parse_spec "".toList false false = [] :=
  ⟨(parse_spec_priority "~d!5".toList false false).1 (by decide),
   (parse_spec_priority "t!1/2 3:4".toList true true).2.1 (by decide) (by decide)
     (by decide),
   (parse_spec_priority "d!1/2 3:4".toList true true).2.2.1 (by decide) (by decide)
     (by decide),
   ((parse_spec_priority "1/2 3:4".toList true true).2.2.2 (by decide)
     (by decide)).1 rfl rfl,
   ((parse_spec_priority "3:4".toList true false).2.2.2 (by decide)
     (by decide)).2.1 rfl rfl,
   ((parse_spec_priority "1/2".toList false true).2.2.2 (by decide)
     (by decide)).2.2.1 rfl rfl,
   ((parse_spec_priority "".toList false false).2.2.2 (by decide)
     (by decide)).2.2.2 rfl rfl⟩

/-- C8: an emoji token `::name::` resolves through the directory: a known
name becomes `<:name:id>`, an unknown one is rendered `:name:`, and an
occurrence preceded by `<` is not matched at all (the `(?<!<)` lookbehind),
so the text is left unchanged. -/
theorem emoji_token_resolution (em : List (List Char × List Char))
    (name i : List Char) (hne : name ≠ [])
    (hw : ∀ c ∈ name, isWordChar c = true) :
    (dictGet em name = some i →
      emojiSub em (':' :: ':' :: (name ++ [':', ':'])) =
        '<' :: ':' :: (name ++ ':' :: (i ++ ['>']))) ∧
    (dictGet em name = none →
      emojiSub em (':' :: ':' :: (name ++ [':', ':'])) =
        ':' :: (name ++ [':'])) ∧
    emojiSub em ('<' :: ':' :: ':' :: (name ++ [':', ':'])) =
      '<' :: ':' :: ':' :: (name ++ [':', ':']) := by
  refine ⟨?_, ?_, ?_⟩
  · intro hget
    rw [emojiSub_single_token em name hne hw, emoji_replacer, hget]
  · intro hget
    rw [emojiSub_single_token em name hne hw, emoji_replacer, hget]
  · obtain ⟨a, name2, hn⟩ := List.exists_cons_of_ne_nil hne
    subst hn
    have ha : isWordChar a = true := hw a (by simp)
    apply emojiSubAux_of_search_false
    have h1 : emojiMatchAt none
        ('<' :: ':' :: ':' :: ((a :: name2) ++ [':', ':'])) = none := by
      unfold emojiMatchAt
      rw [if_neg (by simp), if_neg (by intro hc; simp at hc)]
    have h2 : emojiMatchAt (some '<')
        (':' :: ':' :: ((a :: name2) ++ [':', ':'])) = none := by
      unfold emojiMatchAt
      rw [if_pos rfl]
    have h3 : emojiMatchAt (some ':')
        (':' :: ((a :: name2) ++ [':', ':'])) = none := by
      have hcond : ¬((':' :: ((a :: name2) ++ [':', ':'])).take 2 = [':', ':']) := by
        intro hc
        rw [show (':' :: ((a :: name2) ++ [':', ':'])).take 2 = [':', a] from rfl] at hc
        injection hc with hc1 hc2
        injection hc2 with hc3 hc4
        exact (word_ne_colon ha) hc3
      unfold emojiMatchAt
      rw [if_neg (by simp), if_neg hcond]
    rw [emojiSearchAux, h1]
    simp only [Option.isSome_none, Bool.false_or]
    rw [emojiSearchAux, h2]
    simp only [Option.isSome_none, Bool.false_or]
    rw [emojiSearchAux, h3]
    simp only [Option.isSome_none, Bool.false_or]
    exact emojiSearchAux_word_colon2 (a :: name2) hw (some ':')

/-- Witness for C8: a known name, an unknown name, and a `<`-preceded
occurrence. -/
theorem emoji_token_resolution_witness :
    emojiSub [("abc".toList, "123".toList)] "::abc::".toList = "<:abc:123>".toList ∧
    emojiSub [("abc".toList, "123".toList)] "::zzz::".toList = ":zzz:".toList ∧
    emojiSub [("abc".toList, "123".toList)] "<::abc::".toList = "<::abc::".toList := by
  refine ⟨?_, ?_, ?_⟩
  · have h := (emoji_token_resolution [("abc".toList, "123".toList)]
      "abc".toList "123".toList (by decide) (by decide)).1 (by decide)
    exact h
  · have h := (emoji_token_resolution [("abc".toList, "123".toList)]
      "zzz".toList "123".toList (by decide) (by decide)).2.1 (by decide)
    exact h
  · have h := (emoji_token_resolution [("abc".toList, "123".toList)]
      "abc".toList "123".toList (by decide) (by decide)).2.2
    exact h

/-- C9: an edit or delete context-menu invocation on a message not authored
by the bot sends exactly the ephemeral rejection notice, attempts no edit or
delete platform call, leaves every piece of state unchanged, and returns
normally (no exception escapes this branch: the model returns `.ok` for the
edit handler and the delete handler is total). -/
theorem context_menu_rejects_foreign_author (env : Env) (st : BotState)
    (cache : SizedCache Nat (List Char)) (botUserId : Nat) (msg : MsgRef)
    (modalResponse : Option (List Char)) (deleteOk : Bool)
    (h : msg.authorId ≠ botUserId) :
    edit_context env st cache botUserId msg modalResponse =
      ([{ content := "This message is not sent by me!".toList, ephemeral := true }],
        false, cache, .ok st) ∧
    delete_context botUserId msg deleteOk =
      ([{ content := "This message is not sent by me!".toList, ephemeral := true }],
        false) := by
  constructor
  · rw [edit_context.eq_def, if_pos h]
  · rw [delete_context.eq_def, if_pos h]

/-- Witness for C9 at a concrete foreign-authored message. -/
theorem context_menu_rejects_foreign_author_witness :
    edit_context sampleEnv initialBotState (SizedCache.init 100) 1
        { id := 5, authorId := 2 } none =
      ([{ content := "This message is not sent by me!".toList, ephemeral := true }],
        false, SizedCache.init 100, .ok initialBotState) ∧
    delete_context 1 { id := 5, authorId := 2 } true =
      ([{ content := "This message is not sent by me!".toList, ephemeral := true }],
        false) :=
  context_menu_rejects_foreign_author sampleEnv initialBotState
    (SizedCache.init 100) 1 { id := 5, authorId := 2 } none true (by decide)

/-- C3 (amended): a timestamp token whose numeric fields are out of calendar
range makes the substitution fail with the date-construction `ValueError`;
the exception propagates out of `echo_command` uncaught, so the handler
itself sends nothing (in particular no ephemeral error message of its own —
the external framework's error handling is relied upon), and the failure is
a recoverable per-invocation error, not a crash. -/
theorem echo_invalid_token_propagates (env : Env) (st : BotState)
    (cache : SizedCache Nat (List Char)) (newMessageId : Nat)
    (t : List Char) (e : String)
    (h : dtSub env (unescapeNewlines t) = .error e) :
    echo_command env st cache newMessageId t = ([], .error e) := by
  rw [echo_command, make_message, h]

/-- Witness for C3's amended theorem: the token `{13/1}` (month 13). -/
theorem echo_invalid_token_propagates_witness :
    echo_command sampleEnv initialBotState (SizedCache.init 100) 1
      "\x7b13/1\x7d".toList = ([], .error "ValueError") :=
  echo_invalid_token_propagates sampleEnv initialBotState (SizedCache.init 100) 1
    "\x7b13/1\x7d".toList "ValueError" rfl

/-- C3 (counterexample to the claim as stated): on the out-of-range token
`{13/1}` the echo handler sends no message at all — in particular no
ephemeral "invalid template" error as the claim asserts — and the
`ValueError` escapes the handler. -/
theorem echo_invalid_token_no_ephemeral_report :
    (echo_command sampleEnv initialBotState (SizedCache.init 100) 1
      "\x7b13/1\x7d".toList).1 = [] ∧
    (echo_command sampleEnv initialBotState (SizedCache.init 100) 1
      "\x7b13/1\x7d".toList).2 = .error "ValueError" := by
  constructor
  · rfl
  · rfl

/-- C7 (amended): for every template whose newline-unescaped form contains
no timestamp-token match and no emoji-token match, `make_message` returns
exactly the unescaped input (each literal backslash-n replaced by a
newline), with the globals unchanged and no remote fetch. -/
theorem no_token_substitution_identity (env : Env) (st : BotState)
    (t : List Char)
    (hd : dtSearch (unescapeNewlines t) = false)
    (he : emojiSearch (unescapeNewlines t) = false) :
    make_message env st t = (.ok (unescapeNewlines t), st, false) := by
  have h1 : dtSub env (unescapeNewlines t) = .ok (unescapeNewlines t) :=
    dtSubAux_of_search_false env (unescapeNewlines t) (unescapeNewlines t).length hd
  have h2 : emojiSub st.emojis (unescapeNewlines t) = unescapeNewlines t :=
    emojiSubAux_of_search_false st.emojis (unescapeNewlines t) none
      (unescapeNewlines t).length he
  rw [emojiSub] at h2
  simp only [make_message, h1, he, Bool.false_eq_true, if_false, emojiSub, h2]

/-- Witness for C7's amended theorem on a token-free template with a
literal backslash-n. -/
theorem no_token_substitution_identity_witness :
    make_message sampleEnv initialBotState "hi\\nthere".toList =
      (.ok (unescapeNewlines "hi\\nthere".toList), initialBotState, false) :=
  no_token_substitution_identity sampleEnv initialBotState "hi\\nthere".toList
    rfl rfl

/-- C7 (counterexample to the claim as stated): the template `{1/2\n}`
(with a literal backslash-n) contains no timestamp token and no emoji token,
yet substitution does not return the merely-unescaped input: `make_message`
unescapes `\n` BEFORE token matching, `\s*` in `DT_PATTERN` matches the
produced newline, and the unescaped text therefore gains a timestamp token
that is substituted. -/
theorem template_without_tokens_still_substituted :
    dtSearch "\x7b1/2\\n\x7d".toList = false ∧
    emojiSearch "\x7b1/2\\n\x7d".toList = false ∧
    (make_message sampleEnv initialBotState "\x7b1/2\\n\x7d".toList).1 =
      .ok "<t:86400:D>".toList ∧
    "<t:86400:D>".toList ≠ unescapeNewlines "\x7b1/2\\n\x7d".toList :=
  ⟨rfl, rfl, rfl, by decide⟩

/-- C1 (code bug): `update_emojis` never records the refresh time —
`emoji_updated` is initialised to `datetime.fromtimestamp(0)` and never
assigned anywhere — so the 5-minute throttle never engages once the wall
clock is 300 s past the epoch.  A second emoji-bearing substitution started
60 seconds after a directory refresh performed by the first still performs
the remote fetch, contradicting the claim. -/
theorem emoji_refresh_never_recorded :
    (∀ (env : Env) (st : BotState),
      (update_emojis env st).1.emojiUpdated = st.emojiUpdated) ∧
    (make_message sampleEnv initialBotState "::a::".toList).2.2 = true ∧
    (make_message sampleEnvLater
      (make_message sampleEnv initialBotState "::a::".toList).2.1
      "::a::".toList).2.2 = true := by
  refine ⟨?_, rfl, rfl⟩
  intro env st
  rw [update_emojis]
  split
  · rfl
  · rfl

/-- C2 (code bug): `set_timezone` writes `timedelta.seconds / 3600`, and
`timedelta.seconds` is the normalised non-negative seconds component, not
the total offset.  A non-negative offset such as +5 round-trips, but
`/timezone -5` persists `19.0` and reading it back yields a +19-hour
timezone — outside the claimed [-12, 12] range and different from the value
that was set. -/
theorem timezone_roundtrip_broken :
    timezone_command_file 5 = 5 ∧
    get_timezone_hours (timezone_command_file 5) = .ok 5 ∧
    timezone_command_file (-5) = 19 ∧
    get_timezone_hours (timezone_command_file (-5)) = .ok 19 ∧
    ¬((19 : ℚ) ≤ 12) := by
  have h5 : timezone_command_file 5 = 5 := by
    rw [timezone_command_file, set_timezone_file]
    norm_num
  have hm5 : timezone_command_file (-5) = 19 := by
    rw [timezone_command_file, set_timezone_file]
    norm_num
  refine ⟨h5, ?_, hm5, ?_, by norm_num⟩
  · rw [h5, get_timezone_hours, if_pos (by norm_num)]
  · rw [hm5, get_timezone_hours, if_pos (by norm_num)]
